import Mathlib

/-!
Verification development for the chained hash table implemented in
`src/hash_table.c` of the C-HASH-TABLE repository.

The C code is shallowly embedded: a C string key becomes the list of its
bytes, a `KeyValuePair` chain becomes a Lean list, the bucket array becomes a
list of chains, and `unsigned long` arithmetic is `Nat` arithmetic taken
modulo `2 ^ 64`.  A C pointer value (`void*`) is modelled as `Option V`,
with `none` playing the role of `NULL`.  Allocation is assumed to succeed
(the `malloc == NULL` branches of the source are environment failures, not
algorithmic behaviour), except where a comment says otherwise.
-/

namespace HashTableC

/-- A C string key: the list of its character bytes (no NUL terminator;
`strcmp` equality on C strings is exactly list equality here). -/
abbrev Key := List Nat

/-- A C object pointer (`void*`): `none` is `NULL`. -/
abbrev Ptr (V : Type) := Option V

/-- One `KeyValuePair` node of `src/hash_table.c` (lines 21-25), minus the
`next` pointer, which is absorbed into the enclosing list. -/
structure KeyValuePair (V : Type) where
  key : Key
  value : Ptr V

/-- A bucket's collision chain: the linked list hanging off one slot of the
bucket array, head first. -/
abbrev Chain (V : Type) := List (KeyValuePair V)

/-- The `HashTable` structure of `src/hash_table.c` (lines 33-37). -/
structure HashTable (V : Type) where
  capacity : Nat
  array : List (Chain V)
  size : Nat

variable {V : Type}

/-- The wraparound modulus of the 64-bit `unsigned long` used by `hash`. -/
def W : Nat := 2 ^ 64

/-- One iteration of the loop body of `hash` (line 58):
`hash = ((hash << 5) + hash) + c`, every operation wrapping modulo `2 ^ 64`. -/
def hashStep (h c : Nat) : Nat := (((h <<< 5) % W + h) % W + c) % W

/-- `hash` (src/hash_table.c lines 48-62): djb2, accumulator starts at 5381
and folds `hashStep` over the bytes of the key in order. -/
def hash (key : Key) : Nat := key.foldl hashStep 5381

/-- `getIndex` (src/hash_table.c lines 74-77): `hash(key) % ht->capacity`. -/
def getIndex (ht : HashTable V) (key : Key) : Nat := hash key % ht.capacity

/-- `createHashTable` (src/hash_table.c lines 88-112).  The function stores
the capacity unchecked, sets size to 0 and makes every one of the `capacity`
buckets empty.  Allocation model: `malloc` succeeds for any reasonable size,
so a negative `capacity` (whose byte count `capacity * sizeof(KeyValuePair*)`
converts to an enormous `size_t`) makes the bucket-array allocation fail and
the constructor return `NULL`; every capacity `>= 0` succeeds.  Note there is
no capacity validation of any kind in the source. -/
def createHashTable (capacity : Int) : Option (HashTable V) :=
  if capacity < 0 then none
  else some { capacity := capacity.toNat
              array := List.replicate capacity.toNat []
              size := 0 }

/-- The scan-and-update loop of `insert` (lines 130-138): walk the chain; on
the first node whose key is `strcmp`-equal, overwrite its value in place and
report `some` of the updated chain; report `none` if the chain runs out. -/
def chainReplace (chain : Chain V) (key : Key) (value : Ptr V) : Option (Chain V) :=
  match chain with
  | [] => none
  | p :: rest =>
    if p.key = key then some ({ p with value := value } :: rest)
    else (chainReplace rest key value).map (fun r => p :: r)

/-- `insert` (src/hash_table.c lines 125-160): compute the bucket index, try
to overwrite an existing entry in that bucket's chain; otherwise push a new
node holding a copy of the key at the head of the chain and increment `size`.
Returns the C function's boolean result (always `true`: allocation succeeds
in the model) paired with the table after the call. -/
def insert (ht : HashTable V) (key : Key) (value : Ptr V) : Bool × HashTable V :=
  let index := getIndex ht key
  let chain := ht.array.getD index []
  match chainReplace chain key value with
  | some chain2 =>
      (true, { ht with array := ht.array.set index chain2 })
  | none =>
      (true, { ht with array := ht.array.set index (⟨key, value⟩ :: chain)
                       size := ht.size + 1 })

/-- The lookup loop of `get` (lines 174-181): first node of the chain whose
key matches yields its stored value pointer; an exhausted chain yields `NULL`. -/
def chainFind (chain : Chain V) (key : Key) : Ptr V :=
  match chain with
  | [] => none
  | p :: rest => if p.key = key then p.value else chainFind rest key

/-- `get` (src/hash_table.c lines 169-185): scan the bucket selected by
`getIndex`; return the matching node's value pointer, or `NULL` (`none`)
when no node matches. -/
def get (ht : HashTable V) (key : Key) : Ptr V :=
  chainFind (ht.array.getD (getIndex ht key) []) key

/-- The unlink loop of `delete` (lines 198-224): remove the first node of the
chain whose key matches, splicing its predecessor to its successor (or moving
the bucket head), and report `some` of the shortened chain; report `none` if
no node matches. -/
def chainDelete (chain : Chain V) (key : Key) : Option (Chain V) :=
  match chain with
  | [] => none
  | p :: rest =>
    if p.key = key then some rest
    else (chainDelete rest key).map (fun r => p :: r)

/-- `delete` (src/hash_table.c lines 194-228): compute the bucket index and
unlink the first matching node of that chain, decrementing `size` and
returning `true`; return `false` with the table untouched when no node
matches. -/
def delete (ht : HashTable V) (key : Key) : Bool × HashTable V :=
  let index := getIndex ht key
  match chainDelete (ht.array.getD index []) key with
  | some chain2 =>
      (true, { ht with array := ht.array.set index chain2
                       size := ht.size - 1 })
  | none => (false, ht)

/-- The keys stored along one chain, in chain order. -/
def bucketKeys (chain : Chain V) : List Key := chain.map KeyValuePair.key

/-- Every key stored anywhere in the table, bucket by bucket. -/
def allKeys (ht : HashTable V) : List Key := (ht.array.map bucketKeys).flatten

/-- Well-formedness of a table, as established by `createHashTable` with a
positive capacity and maintained by `insert` and `delete`: the bucket array
has exactly `capacity` slots, the capacity is positive, every stored entry
sits in the bucket its key hashes to, no bucket chain repeats a key, and
`size` counts the entries reachable from all buckets. -/
def WF (ht : HashTable V) : Prop :=
  ht.array.length = ht.capacity ∧
  0 < ht.capacity ∧
  (∀ i ∈ List.range ht.array.length,
    ∀ p ∈ ht.array.getD i [], getIndex ht p.key = i) ∧
  (∀ i ∈ List.range ht.array.length, (bucketKeys (ht.array.getD i [])).Nodup) ∧
  ht.size = (ht.array.map List.length).sum

instance (ht : HashTable V) : Decidable (WF ht) := by
  unfold WF
  infer_instance

/-- Folding a batch of inserts over a table, discarding the boolean results:
`applyInserts ht ops` performs `insert` for each `(key, value)` of `ops`
in order. -/
def applyInserts (ht : HashTable V) (ops : List (Key × Ptr V)) : HashTable V :=
  ops.foldl (fun t op => (insert t op.1 op.2).2) ht

/-- A concrete empty table with three buckets, as produced by
`createHashTable(3)`. -/
def exEmpty : HashTable Nat := { capacity := 3, array := [[], [], []], size := 0 }

/-- A concrete table holding the keys `[1]` and `[2]` (which land in
different buckets of `exEmpty`). -/
def exTable : HashTable Nat :=
  (insert (insert exEmpty [1] (some 100)).2 [2] (some 200)).2

/-- A concrete single-bucket table in which the keys `[1]` and `[2]` collide,
giving a two-node chain. -/
def exCollide : HashTable Nat :=
  (insert (insert { capacity := 1, array := [[]], size := 0 } [1] (some 1)).2
    [2] (some 2)).2

/-! ### Chain-level lemmas -/

theorem mem_bucketKeys {chain : Chain V} {k : Key} :
    k ∈ bucketKeys chain ↔ ∃ p ∈ chain, p.key = k := by
  simp [bucketKeys, List.mem_map]

theorem bucketKeys_cons {p : KeyValuePair V} {rest : Chain V} :
    bucketKeys (p :: rest) = p.key :: bucketKeys rest := rfl

theorem chainReplace_eq_none {chain : Chain V} {k : Key} {v : Ptr V} :
    chainReplace chain k v = none ↔ k ∉ bucketKeys chain := by
  induction chain with
  | nil => simp [chainReplace, bucketKeys]
  | cons p rest ih =>
    by_cases h : p.key = k
    · simp [chainReplace, h, bucketKeys_cons]
    · simp [chainReplace, h, bucketKeys_cons, Option.map_eq_none', ih, Ne.symm h]

theorem chainFind_eq_none {chain : Chain V} {k : Key}
    (h : k ∉ bucketKeys chain) : chainFind chain k = none := by
  induction chain with
  | nil => rfl
  | cons p rest ih =>
    rw [bucketKeys_cons] at h
    simp only [List.mem_cons, not_or] at h
    simp [chainFind, Ne.symm h.1, ih h.2]

theorem chainFind_of_chainReplace {chain c2 : Chain V} {k : Key} {v : Ptr V}
    (h : chainReplace chain k v = some c2) : chainFind c2 k = v := by
  induction chain generalizing c2 with
  | nil => simp [chainReplace] at h
  | cons p rest ih =>
    by_cases hk : p.key = k
    · simp only [chainReplace, if_pos hk, Option.some.injEq] at h
      subst h
      simp [chainFind, hk]
    · simp only [chainReplace, if_neg hk, Option.map_eq_some'] at h
      obtain ⟨r, hr, rfl⟩ := h
      simp [chainFind, hk, ih hr]

theorem bucketKeys_chainReplace {chain c2 : Chain V} {k : Key} {v : Ptr V}
    (h : chainReplace chain k v = some c2) : bucketKeys c2 = bucketKeys chain := by
  induction chain generalizing c2 with
  | nil => simp [chainReplace] at h
  | cons p rest ih =>
    by_cases hk : p.key = k
    · simp only [chainReplace, if_pos hk, Option.some.injEq] at h
      subst h
      rfl
    · simp only [chainReplace, if_neg hk, Option.map_eq_some'] at h
      obtain ⟨r, hr, rfl⟩ := h
      simp [bucketKeys_cons, ih hr]

theorem length_chainReplace {chain c2 : Chain V} {k : Key} {v : Ptr V}
    (h : chainReplace chain k v = some c2) : c2.length = chain.length := by
  have := bucketKeys_chainReplace h
  simpa [bucketKeys] using congrArg List.length this

theorem chainFind_chainReplace_ne {chain c2 : Chain V} {k k2 : Key} {v : Ptr V}
    (hne : k2 ≠ k) (h : chainReplace chain k v = some c2) :
    chainFind c2 k2 = chainFind chain k2 := by
  induction chain generalizing c2 with
  | nil => simp [chainReplace] at h
  | cons p rest ih =>
    by_cases hk : p.key = k
    · simp only [chainReplace, if_pos hk, Option.some.injEq] at h
      subst h
      have : p.key ≠ k2 := by rw [hk]; exact fun e => hne e.symm
      simp [chainFind, this]
    · simp only [chainReplace, if_neg hk, Option.map_eq_some'] at h
      obtain ⟨r, hr, rfl⟩ := h
      by_cases hp : p.key = k2
      · simp [chainFind, hp]
      · simp [chainFind, hp, ih hr]

theorem chainDelete_eq_none {chain : Chain V} {k : Key} :
    chainDelete chain k = none ↔ k ∉ bucketKeys chain := by
  induction chain with
  | nil => simp [chainDelete, bucketKeys]
  | cons p rest ih =>
    by_cases h : p.key = k
    · simp [chainDelete, h, bucketKeys_cons]
    · simp [chainDelete, h, bucketKeys_cons, Option.map_eq_none', ih, Ne.symm h]

theorem chainDelete_split {chain c2 : Chain V} {k : Key}
    (h : chainDelete chain k = some c2) :
    ∃ pre p post, p.key = k ∧ k ∉ bucketKeys pre ∧
      chain = pre ++ p :: post ∧ c2 = pre ++ post := by
  induction chain generalizing c2 with
  | nil => simp [chainDelete] at h
  | cons q rest ih =>
    by_cases hk : q.key = k
    · simp only [chainDelete, if_pos hk, Option.some.injEq] at h
      exact ⟨[], q, rest, hk, by simp [bucketKeys], by simp [h]⟩
    · simp only [chainDelete, if_neg hk, Option.map_eq_some'] at h
      obtain ⟨r, hr, rfl⟩ := h
      obtain ⟨pre, p, post, hpk, hpre, hchain, hc2⟩ := ih hr
      exact ⟨q :: pre, p, post, hpk,
        by simp [bucketKeys_cons, hpre, Ne.symm hk],
        by simp [hchain], by simp [hc2]⟩

theorem chainDelete_sublist {chain c2 : Chain V} {k : Key}
    (h : chainDelete chain k = some c2) : List.Sublist c2 chain := by
  obtain ⟨pre, p, post, _, _, hchain, hc2⟩ := chainDelete_split h
  rw [hchain, hc2]
  exact (List.sublist_cons_self p post).append_left pre

theorem length_chainDelete {chain c2 : Chain V} {k : Key}
    (h : chainDelete chain k = some c2) : c2.length + 1 = chain.length := by
  obtain ⟨pre, p, post, _, _, hchain, hc2⟩ := chainDelete_split h
  rw [hchain, hc2]
  simp [Nat.add_assoc]

theorem not_mem_bucketKeys_chainDelete {chain c2 : Chain V} {k : Key}
    (hnd : (bucketKeys chain).Nodup) (h : chainDelete chain k = some c2) :
    k ∉ bucketKeys c2 := by
  obtain ⟨pre, p, post, hpk, hpre, hchain, hc2⟩ := chainDelete_split h
  subst hchain
  subst hc2
  intro hmem
  rw [bucketKeys, List.map_append, List.nodup_append] at hnd
  rw [bucketKeys, List.map_append, List.mem_append] at hmem
  rcases hmem with hmem | hmem
  · exact hpre hmem
  · have h2 : (p.key :: List.map KeyValuePair.key post).Nodup := by
      simpa [bucketKeys] using hnd.2.1
    rw [hpk] at h2
    exact (List.nodup_cons.mp h2).1 hmem

/-! ### Bucket-array access lemmas -/

theorem getD_set_eq {α : Type _} {l : List α} {i : Nat} {a d : α} (h : i < l.length) :
    (l.set i a).getD i d = a := by
  rw [List.getD_eq_getElem?_getD, List.getElem?_set_self h]
  rfl

theorem getD_set_ne {α : Type _} {l : List α} {i j : Nat} {a d : α} (h : i ≠ j) :
    (l.set i a).getD j d = l.getD j d := by
  rw [List.getD_eq_getElem?_getD, List.getElem?_set_ne h, ← List.getD_eq_getElem?_getD]

theorem sum_map_length_set (l : List (Chain V)) (i : Nat) (c : Chain V)
    (h : i < l.length) :
    ((l.set i c).map List.length).sum + (l.getD i []).length
      = (l.map List.length).sum + c.length := by
  induction l generalizing i with
  | nil => simp at h
  | cons hd tl ih =>
    cases i with
    | zero => simp [List.getD_cons_zero]; omega
    | succ n =>
      have hn : n < tl.length := by simpa using h
      have := ih n hn
      simp only [List.set_cons_succ, List.map_cons, List.sum_cons, List.getD_cons_succ]
      omega

/-! ### Unfolding equations for `insert` and `delete` -/

theorem insert_of_replace {ht : HashTable V} {k : Key} {v : Ptr V} {c2 : Chain V}
    (h : chainReplace (ht.array.getD (getIndex ht k) []) k v = some c2) :
    insert ht k v = (true, { ht with array := ht.array.set (getIndex ht k) c2 }) := by
  simp only [insert]
  rw [h]

theorem insert_of_new {ht : HashTable V} {k : Key} {v : Ptr V}
    (h : chainReplace (ht.array.getD (getIndex ht k) []) k v = none) :
    insert ht k v = (true,
      { ht with array := ht.array.set (getIndex ht k)
                  (⟨k, v⟩ :: ht.array.getD (getIndex ht k) [])
                size := ht.size + 1 }) := by
  simp only [insert]
  rw [h]

theorem delete_of_found {ht : HashTable V} {k : Key} {c2 : Chain V}
    (h : chainDelete (ht.array.getD (getIndex ht k) []) k = some c2) :
    delete ht k = (true, { ht with array := ht.array.set (getIndex ht k) c2
                                   size := ht.size - 1 }) := by
  simp only [delete]
  rw [h]

theorem delete_of_missing {ht : HashTable V} {k : Key}
    (h : chainDelete (ht.array.getD (getIndex ht k) []) k = none) :
    delete ht k = (false, ht) := by
  simp only [delete]
  rw [h]

/-- `getIndex` only looks at the capacity, which `insert` and `delete` never
change. -/
theorem getIndex_congr {ht2 ht : HashTable V} (h : ht2.capacity = ht.capacity)
    (k : Key) : getIndex ht2 k = getIndex ht k := by
  simp [getIndex, h]

theorem capacity_insert (ht : HashTable V) (k : Key) (v : Ptr V) :
    (insert ht k v).2.capacity = ht.capacity := by
  cases h : chainReplace (ht.array.getD (getIndex ht k) []) k v with
  | some c2 => rw [insert_of_replace h]
  | none => rw [insert_of_new h]

theorem length_array_insert (ht : HashTable V) (k : Key) (v : Ptr V) :
    (insert ht k v).2.array.length = ht.array.length := by
  cases h : chainReplace (ht.array.getD (getIndex ht k) []) k v with
  | some c2 => rw [insert_of_replace h]; exact List.length_set ..
  | none => rw [insert_of_new h]; exact List.length_set ..

theorem capacity_delete (ht : HashTable V) (k : Key) :
    (delete ht k).2.capacity = ht.capacity := by
  cases h : chainDelete (ht.array.getD (getIndex ht k) []) k with
  | some c2 => rw [delete_of_found h]
  | none => rw [delete_of_missing h]

/-! ### `get` after `insert` -/

theorem get_insert_self (ht : HashTable V) (k : Key) (v : Ptr V)
    (harr : ht.array.length = ht.capacity) (hcap : 0 < ht.capacity) :
    get (insert ht k v).2 k = v := by
  have hidx : hash k % ht.capacity < ht.array.length := by
    rw [harr]; exact Nat.mod_lt _ hcap
  cases h : chainReplace (ht.array.getD (getIndex ht k) []) k v with
  | some c2 =>
    rw [insert_of_replace h]
    dsimp only [get, getIndex]
    rw [getD_set_eq hidx]
    exact chainFind_of_chainReplace h
  | none =>
    rw [insert_of_new h]
    dsimp only [get, getIndex]
    rw [getD_set_eq hidx]
    simp [chainFind]

theorem get_insert_ne (ht : HashTable V) (k k2 : Key) (v : Ptr V)
    (hne : k ≠ k2) : get (insert ht k v).2 k2 = get ht k2 := by
  cases h : chainReplace (ht.array.getD (getIndex ht k) []) k v with
  | some c2 =>
    rw [insert_of_replace h]
    dsimp only [get, getIndex]
    by_cases hlen : hash k % ht.capacity < ht.array.length
    · by_cases hij : hash k % ht.capacity = hash k2 % ht.capacity
      · rw [← hij, getD_set_eq hlen]
        exact chainFind_chainReplace_ne (Ne.symm hne) h
      · rw [getD_set_ne hij]
    · rw [List.set_eq_of_length_le (Nat.le_of_not_lt hlen)]
  | none =>
    rw [insert_of_new h]
    dsimp only [get, getIndex]
    by_cases hlen : hash k % ht.capacity < ht.array.length
    · by_cases hij : hash k % ht.capacity = hash k2 % ht.capacity
      · rw [← hij, getD_set_eq hlen]
        simp [chainFind, hne]
      · rw [getD_set_ne hij]
    · rw [List.set_eq_of_length_le (Nat.le_of_not_lt hlen)]

/-! ### Batched inserts -/

theorem capacity_applyInserts (ht : HashTable V) (ops : List (Key × Ptr V)) :
    (applyInserts ht ops).capacity = ht.capacity := by
  induction ops generalizing ht with
  | nil => rfl
  | cons op rest ih =>
    rw [applyInserts, List.foldl_cons]
    rw [show (List.foldl _ _ rest : HashTable V) = applyInserts (insert ht op.1 op.2).2 rest from rfl]
    rw [ih, capacity_insert]

theorem length_array_applyInserts (ht : HashTable V) (ops : List (Key × Ptr V)) :
    (applyInserts ht ops).array.length = ht.array.length := by
  induction ops generalizing ht with
  | nil => rfl
  | cons op rest ih =>
    rw [applyInserts, List.foldl_cons]
    rw [show (List.foldl _ _ rest : HashTable V) = applyInserts (insert ht op.1 op.2).2 rest from rfl]
    rw [ih, length_array_insert]

theorem get_applyInserts_ne (ht : HashTable V) (ops : List (Key × Ptr V))
    (k : Key) (hops : ∀ op ∈ ops, op.1 ≠ k) :
    get (applyInserts ht ops) k = get ht k := by
  induction ops generalizing ht with
  | nil => rfl
  | cons op rest ih =>
    rw [applyInserts, List.foldl_cons]
    rw [show (List.foldl _ _ rest : HashTable V) = applyInserts (insert ht op.1 op.2).2 rest from rfl]
    rw [ih _ fun o ho => hops o (List.mem_cons_of_mem _ ho),
      get_insert_ne _ _ _ _ (hops op (List.mem_cons_self ..))]

/-! ### Absent keys -/

theorem mem_allKeys_of_mem_bucket {ht : HashTable V} {k : Key} {i : Nat}
    (hk : k ∈ bucketKeys (ht.array.getD i [])) : k ∈ allKeys ht := by
  by_cases h : i < ht.array.length
  · rw [allKeys, List.mem_flatten]
    refine ⟨bucketKeys (ht.array.getD i []), ?_, hk⟩
    rw [List.getD_eq_getElem _ _ h]
    exact List.mem_map_of_mem _ (List.getElem_mem h)
  · rw [List.getD_eq_default _ _ (Nat.le_of_not_lt h)] at hk
    simp [bucketKeys] at hk

theorem get_eq_none_of_not_mem (ht : HashTable V) (k : Key)
    (hk : k ∉ allKeys ht) : get ht k = none := by
  dsimp only [get]
  exact chainFind_eq_none fun hmem => hk (mem_allKeys_of_mem_bucket hmem)

/-! ### Well-formedness: establishment and preservation -/

theorem WF_createHashTable {capacity : Int} {ht : HashTable V}
    (hpos : 0 < capacity) (h : createHashTable capacity = some ht) : WF ht := by
  rw [createHashTable, if_neg (by omega)] at h
  injection h with h
  subst h
  refine ⟨by simp, by dsimp only; omega, ?_, ?_, by simp⟩
  · intro i hi p hp
    dsimp only at hp
    rcases Nat.lt_or_ge i capacity.toNat with hlt | hge
    · rw [List.getD_eq_getElem _ _ (by simpa using hlt)] at hp
      simp at hp
    · rw [List.getD_eq_default _ _ (by simpa using hge)] at hp
      simp at hp
  · intro i hi
    dsimp only
    rcases Nat.lt_or_ge i capacity.toNat with hlt | hge
    · rw [List.getD_eq_getElem _ _ (by simpa using hlt)]
      simp [bucketKeys]
    · rw [List.getD_eq_default _ _ (by simpa using hge)]
      simp [bucketKeys]

theorem WF_insert (ht : HashTable V) (k : Key) (v : Ptr V) (hwf : WF ht) :
    WF (insert ht k v).2 := by
  obtain ⟨harr, hcap, hplace, hnd, hsize⟩ := hwf
  dsimp only [getIndex] at hplace
  have hidx : hash k % ht.capacity < ht.array.length := by
    rw [harr]; exact Nat.mod_lt _ hcap
  cases h : chainReplace (ht.array.getD (getIndex ht k) []) k v with
  | some c2 =>
    rw [insert_of_replace h]
    dsimp only [getIndex] at h
    have hkeys := bucketKeys_chainReplace h
    have hlen2 := length_chainReplace h
    refine ⟨?_, hcap, ?_, ?_, ?_⟩
    · dsimp only
      rw [List.length_set, harr]
    · dsimp only [getIndex]
      intro i hi p hp
      rw [List.mem_range, List.length_set] at hi
      by_cases hij : hash k % ht.capacity = i
      · rw [← hij, getD_set_eq hidx] at hp
        have hmem : p.key ∈ bucketKeys (ht.array.getD (hash k % ht.capacity) []) := by
          rw [← hkeys]
          exact List.mem_map_of_mem _ hp
        obtain ⟨q, hq, hqk⟩ := mem_bucketKeys.mp hmem
        have hqi := hplace (hash k % ht.capacity) (List.mem_range.mpr hidx) q hq
        rw [← hqk, hqi, hij]
      · rw [getD_set_ne hij] at hp
        exact hplace i (List.mem_range.mpr (harr ▸ hi)) p hp
    · intro i hi
      dsimp only [getIndex] at hi ⊢
      rw [List.mem_range, List.length_set] at hi
      by_cases hij : hash k % ht.capacity = i
      · rw [← hij, getD_set_eq hidx, hkeys]
        exact hnd _ (List.mem_range.mpr hidx)
      · rw [getD_set_ne hij]
        exact hnd i (List.mem_range.mpr (harr ▸ hi))
    · dsimp only [getIndex]
      have hsum := sum_map_length_set ht.array (hash k % ht.capacity) c2 hidx
      omega
  | none =>
    rw [insert_of_new h]
    dsimp only [getIndex] at h ⊢
    have hknot : k ∉ bucketKeys (ht.array.getD (hash k % ht.capacity) []) :=
      chainReplace_eq_none.mp h
    refine ⟨?_, hcap, ?_, ?_, ?_⟩
    · dsimp only
      rw [List.length_set, harr]
    · dsimp only [getIndex]
      intro i hi p hp
      rw [List.mem_range, List.length_set] at hi
      by_cases hij : hash k % ht.capacity = i
      · rw [← hij, getD_set_eq hidx] at hp
        rcases List.mem_cons.mp hp with rfl | hp2
        · exact hij
        · exact hij ▸ hplace _ (List.mem_range.mpr hidx) p hp2
      · rw [getD_set_ne hij] at hp
        exact hplace i (List.mem_range.mpr (harr ▸ hi)) p hp
    · intro i hi
      dsimp only [getIndex] at hi ⊢
      rw [List.mem_range, List.length_set] at hi
      by_cases hij : hash k % ht.capacity = i
      · rw [← hij, getD_set_eq hidx, bucketKeys_cons]
        exact List.nodup_cons.mpr ⟨hknot, hnd _ (List.mem_range.mpr hidx)⟩
      · rw [getD_set_ne hij]
        exact hnd i (List.mem_range.mpr (harr ▸ hi))
    · dsimp only [getIndex]
      have hsum := sum_map_length_set ht.array (hash k % ht.capacity)
        (⟨k, v⟩ :: ht.array.getD (hash k % ht.capacity) []) hidx
      simp only [List.length_cons] at hsum
      omega

theorem WF_delete (ht : HashTable V) (k : Key) (hwf : WF ht) :
    WF (delete ht k).2 := by
  obtain ⟨harr, hcap, hplace, hnd, hsize⟩ := hwf
  dsimp only [getIndex] at hplace
  have hidx : hash k % ht.capacity < ht.array.length := by
    rw [harr]; exact Nat.mod_lt _ hcap
  cases h : chainDelete (ht.array.getD (getIndex ht k) []) k with
  | none =>
    rw [delete_of_missing h]
    exact ⟨harr, hcap, hplace, hnd, hsize⟩
  | some c2 =>
    rw [delete_of_found h]
    dsimp only [getIndex] at h
    have hsub := chainDelete_sublist h
    have hlen2 := length_chainDelete h
    refine ⟨?_, hcap, ?_, ?_, ?_⟩
    · dsimp only
      rw [List.length_set, harr]
    · dsimp only [getIndex]
      intro i hi p hp
      rw [List.mem_range, List.length_set] at hi
      by_cases hij : hash k % ht.capacity = i
      · rw [← hij, getD_set_eq hidx] at hp
        exact hij ▸ hplace _ (List.mem_range.mpr hidx) p (hsub.subset hp)
      · rw [getD_set_ne hij] at hp
        exact hplace i (List.mem_range.mpr (harr ▸ hi)) p hp
    · intro i hi
      dsimp only [getIndex] at hi ⊢
      rw [List.mem_range, List.length_set] at hi
      by_cases hij : hash k % ht.capacity = i
      · rw [← hij, getD_set_eq hidx]
        exact ((hsub.map KeyValuePair.key).nodup (hnd _ (List.mem_range.mpr hidx)))
      · rw [getD_set_ne hij]
        exact hnd i (List.mem_range.mpr (harr ▸ hi))
    · dsimp only [getIndex]
      have hsum := sum_map_length_set ht.array (hash k % ht.capacity) c2 hidx
      omega

/-! ### Global key uniqueness and bucket membership -/

theorem allKeys_nodup (ht : HashTable V) (hwf : WF ht) : (allKeys ht).Nodup := by
  obtain ⟨harr, hcap, hplace, hnd, hsize⟩ := hwf
  rw [allKeys, List.nodup_flatten]
  constructor
  · intro l hl
    obtain ⟨c, hc, rfl⟩ := List.mem_map.mp hl
    obtain ⟨i, hi, rfl⟩ := List.mem_iff_getElem.mp hc
    have := hnd i (List.mem_range.mpr hi)
    rwa [List.getD_eq_getElem _ _ hi] at this
  · rw [List.pairwise_iff_getElem]
    intro i j hi hj hij
    rw [List.length_map] at hi hj
    intro a ha1 ha2
    rw [List.getElem_map] at ha1 ha2
    obtain ⟨q1, hq1, hq1k⟩ := mem_bucketKeys.mp ha1
    obtain ⟨q2, hq2, hq2k⟩ := mem_bucketKeys.mp ha2
    have e1 := hplace i (List.mem_range.mpr hi) q1
      (by rw [List.getD_eq_getElem _ _ hi]; exact hq1)
    have e2 := hplace j (List.mem_range.mpr hj) q2
      (by rw [List.getD_eq_getElem _ _ hj]; exact hq2)
    rw [hq1k] at e1
    rw [hq2k] at e2
    rw [getIndex_congr rfl] at e1 e2
    omega

theorem mem_bucket_of_mem_allKeys {ht : HashTable V} {k : Key} (hwf : WF ht)
    (hk : k ∈ allKeys ht) :
    k ∈ bucketKeys (ht.array.getD (getIndex ht k) []) := by
  obtain ⟨harr, hcap, hplace, hnd, hsize⟩ := hwf
  rw [allKeys, List.mem_flatten] at hk
  obtain ⟨l, hl, hkl⟩ := hk
  obtain ⟨c, hc, rfl⟩ := List.mem_map.mp hl
  obtain ⟨i, hi, rfl⟩ := List.mem_iff_getElem.mp hc
  have hgd : ht.array.getD i [] = ht.array[i] := List.getD_eq_getElem _ _ hi
  obtain ⟨q, hq, hqk⟩ := mem_bucketKeys.mp hkl
  have hqi := hplace i (List.mem_range.mpr hi) q (by rw [hgd]; exact hq)
  rw [hqk] at hqi
  rw [hqi, hgd]
  exact hkl

/-! ### Small auxiliary facts -/

theorem insert_fst (ht : HashTable V) (k : Key) (v : Ptr V) :
    (insert ht k v).1 = true := by
  cases h : chainReplace (ht.array.getD (getIndex ht k) []) k v with
  | some c2 => rw [insert_of_replace h]
  | none => rw [insert_of_new h]

theorem index_lt_of_chainReplace_some {ht : HashTable V} {i : Nat} {k : Key}
    {v : Ptr V} {c2 : Chain V}
    (h : chainReplace (ht.array.getD i []) k v = some c2) : i < ht.array.length := by
  by_contra hge
  rw [List.getD_eq_default _ _ (Nat.le_of_not_lt hge)] at h
  simp [chainReplace] at h

theorem index_lt_of_chainDelete_some {ht : HashTable V} {i : Nat} {k : Key}
    {c2 : Chain V}
    (h : chainDelete (ht.array.getD i []) k = some c2) : i < ht.array.length := by
  by_contra hge
  rw [List.getD_eq_default _ _ (Nat.le_of_not_lt hge)] at h
  simp [chainDelete] at h

/-! ### The claims -/

/-- C1: the specification requires construction with capacity `≤ 0` to fail
with an InvalidArgument error and produce no table.  `createHashTable` in
`src/hash_table.c` performs no capacity check of any kind: at the failing
input `capacity = 0` it returns a zero-bucket table (whose first `getIndex`
then divides by zero), instead of failing.  This theorem evaluates the
embedded constructor at that input, exhibiting the divergence: a table is
produced. -/
theorem c1_create_accepts_zero_capacity :
    (createHashTable 0 : Option (HashTable Nat))
      = some { capacity := 0, array := [], size := 0 } := rfl

/-- C2: after a successful `insert(table, k, v)`, with no intervening delete
or overwrite of `k`, `get(table, k)` returns `v`, for every sequence of
inserts performed before and every sequence of inserts of other keys
performed after.  The table only needs its structural invariant: the bucket
array has `capacity` slots and the capacity is positive. -/
theorem c2_get_after_insert_returns_value {V : Type} (ht : HashTable V)
    (pre post : List (Key × Ptr V)) (k : Key) (v : Ptr V)
    (harr : ht.array.length = ht.capacity) (hcap : 0 < ht.capacity)
    (hpost : ∀ op ∈ post, op.1 ≠ k) :
    get (applyInserts (insert (applyInserts ht pre) k v).2 post) k = v := by
  have h1 : (applyInserts ht pre).array.length = (applyInserts ht pre).capacity := by
    rw [length_array_applyInserts, capacity_applyInserts, harr]
  have h2 : 0 < (applyInserts ht pre).capacity := by
    rw [capacity_applyInserts]; exact hcap
  rw [get_applyInserts_ne _ _ _ hpost]
  exact get_insert_self _ _ _ h1 h2

theorem c2_witness :
    get (applyInserts (insert (applyInserts exEmpty [([2], some 7)]) [1]
      (some 42)).2 [([2], some 9)]) [1] = some 42 :=
  c2_get_after_insert_returns_value exEmpty [([2], some 7)] [([2], some 9)]
    [1] (some 42) (by decide) (by decide) (by decide)

/-- C6: for every table with positive capacity (and a bucket array of that
length) and every key, the bucket index is `hash(key) mod capacity`, lies in
`[0, capacity)`, and is therefore a valid index into the bucket array — the
only bucket-array access `insert`, `get` and `delete` perform is at this
index. -/
theorem c6_bucket_index_in_bounds {V : Type} (ht : HashTable V) (k : Key)
    (harr : ht.array.length = ht.capacity) (hcap : 0 < ht.capacity) :
    getIndex ht k = hash k % ht.capacity
    ∧ getIndex ht k < ht.capacity
    ∧ getIndex ht k < ht.array.length := by
  refine ⟨rfl, Nat.mod_lt _ hcap, ?_⟩
  rw [harr]
  exact Nat.mod_lt _ hcap

theorem c6_witness :
    getIndex exEmpty [1] = hash [1] % exEmpty.capacity
    ∧ getIndex exEmpty [1] < exEmpty.capacity
    ∧ getIndex exEmpty [1] < exEmpty.array.length :=
  c6_bucket_index_in_bounds exEmpty [1] (by decide) (by decide)

/-- C7: `hash` is a pure function of the byte sequence of the key (it is a
Lean function, so determinism across repeated calls on identical input is by
construction): the empty string hashes to 5381, and the source's
`hash = ((hash << 5) + hash) + c` accumulation in `unsigned long` equals
folding `accumulator * 33 + c` with wraparound at `2 ^ 64` over the bytes in
order. -/
theorem c7_hash_is_djb2 :
    hash [] = 5381
    ∧ ∀ key : Key,
        hash key = key.foldl (fun acc c => (acc * 33 + c) % W) 5381 := by
  have hstep : hashStep = fun acc c => (acc * 33 + c) % W := by
    funext h c
    simp only [hashStep, W, Nat.shiftLeft_eq]
    norm_num
    omega
  exact ⟨rfl, fun key => by rw [hash, hstep]⟩

/-- C8: deleting a key that is stored nowhere in the table returns
not-found (`false`) and returns the table completely unchanged: same size,
same buckets, same entries. -/
theorem c8_delete_absent_is_noop {V : Type} (ht : HashTable V) (k : Key)
    (hk : k ∉ allKeys ht) : delete ht k = (false, ht) := by
  apply delete_of_missing
  rw [chainDelete_eq_none]
  exact fun hmem => hk (mem_allKeys_of_mem_bucket hmem)

theorem c8_witness : delete exTable [3] = (false, exTable) :=
  c8_delete_absent_is_noop exTable [3] (by decide)

/-- C3: inserting a key that the table already holds (byte-for-byte string
equality) overwrites the entry's value in place: `insert` returns success,
the size is unchanged, every bucket keeps exactly the same keys in the same
chain order (so the entry's key and chain position are untouched), and a
subsequent `get` returns the new value. -/
theorem c3_insert_existing_overwrites {V : Type} (ht : HashTable V) (k : Key)
    (v2 : Ptr V) (hwf : WF ht) (hk : k ∈ allKeys ht) :
    (insert ht k v2).1 = true
    ∧ (insert ht k v2).2.size = ht.size
    ∧ (∀ i : Nat, bucketKeys ((insert ht k v2).2.array.getD i [])
        = bucketKeys (ht.array.getD i []))
    ∧ get (insert ht k v2).2 k = v2 := by
  have hbk := mem_bucket_of_mem_allKeys hwf hk
  obtain ⟨harr, hcap, hplace, hnd, hsize⟩ := hwf
  cases h : chainReplace (ht.array.getD (getIndex ht k) []) k v2 with
  | none => exact absurd hbk (chainReplace_eq_none.mp h)
  | some c2 =>
    have hidx : getIndex ht k < ht.array.length := index_lt_of_chainReplace_some h
    refine ⟨insert_fst .., ?_, ?_, ?_⟩
    · rw [insert_of_replace h]
    · intro i
      rw [insert_of_replace h]
      dsimp only
      by_cases hij : getIndex ht k = i
      · rw [← hij, getD_set_eq hidx, bucketKeys_chainReplace h]
      · rw [getD_set_ne hij]
    · exact get_insert_self ht k v2 harr hcap

theorem c3_witness :
    (insert exTable [1] (some 77)).1 = true
    ∧ (insert exTable [1] (some 77)).2.size = exTable.size
    ∧ (∀ i : Nat, bucketKeys ((insert exTable [1] (some 77)).2.array.getD i [])
        = bucketKeys (exTable.array.getD i []))
    ∧ get (insert exTable [1] (some 77)).2 [1] = some 77 :=
  c3_insert_existing_overwrites exTable [1] (some 77) (by decide) (by decide)

/-- C4: deleting a key the table holds returns removed (`true`), decreases
the size by exactly one from its pre-delete value, and a subsequent `get` of
that key returns not-found (`NULL`). -/
theorem c4_delete_present_removes {V : Type} (ht : HashTable V) (k : Key)
    (hwf : WF ht) (hk : k ∈ allKeys ht) :
    (delete ht k).1 = true
    ∧ (delete ht k).2.size + 1 = ht.size
    ∧ get (delete ht k).2 k = none := by
  have hbk := mem_bucket_of_mem_allKeys hwf hk
  obtain ⟨harr, hcap, hplace, hnd, hsize⟩ := hwf
  cases h : chainDelete (ht.array.getD (getIndex ht k) []) k with
  | none => exact absurd hbk (chainDelete_eq_none.mp h)
  | some c2 =>
    have hidx : getIndex ht k < ht.array.length := index_lt_of_chainDelete_some h
    obtain ⟨q, hq, hqk⟩ := mem_bucketKeys.mp hbk
    have hclen : 0 < (ht.array.getD (getIndex ht k) []).length :=
      List.length_pos_of_mem hq
    have hmemarr : ht.array.getD (getIndex ht k) [] ∈ ht.array := by
      rw [List.getD_eq_getElem _ _ hidx]
      exact List.getElem_mem hidx
    have hle := List.single_le_sum (fun x _ => Nat.zero_le x) _
      (List.mem_map_of_mem List.length hmemarr)
    refine ⟨?_, ?_, ?_⟩
    · rw [delete_of_found h]
    · rw [delete_of_found h]
      dsimp only
      omega
    · rw [delete_of_found h]
      have hnotmem : k ∉ bucketKeys c2 :=
        not_mem_bucketKeys_chainDelete (hnd _ (List.mem_range.mpr hidx)) h
      dsimp only [get, getIndex] at hidx ⊢
      rw [getD_set_eq hidx]
      exact chainFind_eq_none hnotmem

theorem c4_witness :
    (delete exTable [1]).1 = true
    ∧ (delete exTable [1]).2.size + 1 = exTable.size
    ∧ get (delete exTable [1]).2 [1] = none :=
  c4_delete_present_removes exTable [1] (by decide) (by decide)

/-- C5: key uniqueness is an invariant of the table.  `createHashTable`
(with the positive capacity the spec demands) establishes the well-formedness
invariant `WF`; `insert` and `delete` preserve it (`get` does not mutate the
table at all in this embedding, so there is nothing to preserve for it); and
`WF` entails that each key string occurs in at most one entry across the
whole table (the list of all stored keys has no duplicate).  Uniqueness is
enforced at insert time: `insert` overwrites an existing equal key rather
than adding a second entry. -/
theorem c5_key_uniqueness_invariant {V : Type} :
    (∀ (capacity : Int) (ht : HashTable V), 0 < capacity →
        createHashTable capacity = some ht →
        WF ht ∧ (allKeys ht).Nodup)
    ∧ (∀ (ht : HashTable V) (k : Key) (v : Ptr V), WF ht →
        WF (insert ht k v).2 ∧ (allKeys (insert ht k v).2).Nodup)
    ∧ (∀ (ht : HashTable V) (k : Key), WF ht →
        WF (delete ht k).2 ∧ (allKeys (delete ht k).2).Nodup) := by
  refine ⟨?_, ?_, ?_⟩
  · intro capacity ht hpos h
    have hwf := WF_createHashTable hpos h
    exact ⟨hwf, allKeys_nodup _ hwf⟩
  · intro ht k v hwf
    have h2 := WF_insert ht k v hwf
    exact ⟨h2, allKeys_nodup _ h2⟩
  · intro ht k hwf
    have h2 := WF_delete ht k hwf
    exact ⟨h2, allKeys_nodup _ h2⟩

theorem c5_witness :
    WF (insert exTable [3] (some 5)).2
    ∧ (allKeys (insert exTable [3] (some 5)).2).Nodup :=
  c5_key_uniqueness_invariant.2.1 exTable [3] (some 5) (by decide)

/-- C9: `get` signals not-found by returning `NULL` (`none`) and returns the
stored value pointer on a match; consequently a key whose stored value is
`NULL` is indistinguishable through `get` from an absent key: both lookups
return `NULL`. -/
theorem c9_null_value_indistinguishable {V : Type} (ht : HashTable V) (k : Key) :
    (k ∉ allKeys ht → get ht k = none)
    ∧ get (insert ht k none).2 k = none := by
  refine ⟨get_eq_none_of_not_mem ht k, ?_⟩
  cases h : chainReplace (ht.array.getD (getIndex ht k) []) k none with
  | some c2 =>
    have hidx : getIndex ht k < ht.array.length := index_lt_of_chainReplace_some h
    rw [insert_of_replace h]
    dsimp only [get, getIndex] at hidx ⊢
    rw [getD_set_eq hidx]
    exact chainFind_of_chainReplace h
  | none =>
    rw [insert_of_new h]
    dsimp only [get, getIndex]
    by_cases hlen : hash k % ht.capacity < ht.array.length
    · rw [getD_set_eq hlen]
      simp [chainFind]
    · rw [List.set_eq_of_length_le (Nat.le_of_not_lt hlen),
        List.getD_eq_default _ _ (Nat.le_of_not_lt hlen)]
      rfl

theorem c9_witness :
    get exTable [3] = none ∧ get (insert exTable [4] none).2 [4] = none :=
  ⟨(c9_null_value_indistinguishable exTable [3]).1 (by decide),
   (c9_null_value_indistinguishable exTable [4]).2⟩

/-- C10: deleting a stored key unlinks exactly that key's node from its
bucket's chain: the chain splits as `pre ++ node :: post` before the call and
is `pre ++ post` afterwards (so every remaining entry keeps its relative
order), and every other bucket's chain is left completely unchanged. -/
theorem c10_delete_preserves_chain_order {V : Type} (ht : HashTable V) (k : Key)
    (hwf : WF ht) (hk : k ∈ allKeys ht) :
    (∃ pre p post, p.key = k
      ∧ ht.array.getD (getIndex ht k) [] = pre ++ p :: post
      ∧ (delete ht k).2.array.getD (getIndex ht k) [] = pre ++ post)
    ∧ ∀ j : Nat, j ≠ getIndex ht k →
      (delete ht k).2.array.getD j [] = ht.array.getD j [] := by
  have hbk := mem_bucket_of_mem_allKeys hwf hk
  cases h : chainDelete (ht.array.getD (getIndex ht k) []) k with
  | none => exact absurd hbk (chainDelete_eq_none.mp h)
  | some c2 =>
    have hidx : getIndex ht k < ht.array.length := index_lt_of_chainDelete_some h
    obtain ⟨pre, p, post, hpk, hpre, hchain, hc2⟩ := chainDelete_split h
    constructor
    · refine ⟨pre, p, post, hpk, hchain, ?_⟩
      rw [delete_of_found h]
      dsimp only [getIndex] at hidx ⊢
      rw [getD_set_eq hidx, hc2]
    · intro j hj
      rw [delete_of_found h]
      dsimp only [getIndex] at hj ⊢
      rw [getD_set_ne (Ne.symm hj)]

theorem c10_witness :
    (∃ pre p post, p.key = [1]
      ∧ exCollide.array.getD (getIndex exCollide [1]) [] = pre ++ p :: post
      ∧ (delete exCollide [1]).2.array.getD (getIndex exCollide [1]) []
        = pre ++ post)
    ∧ ∀ j : Nat, j ≠ getIndex exCollide [1] →
      (delete exCollide [1]).2.array.getD j [] = exCollide.array.getD j [] :=
  c10_delete_preserves_chain_order exCollide [1] (by decide) (by decide)

end HashTableC
